import Mathlib

set_option maxHeartbeats 1000000

/-!
Shallow embedding of `src/game-search-algorithm/src/main.rs`: a small maze
game (`MazeState`) with a greedy one-ply selector (`greedy_action`) and a
beam-search selector (`beam_search_action`) over a binary max-heap frontier.

Machine integers (`i64` = `ScoreType`) are modelled as `Int`; `usize` counters
as `Nat`.  Rust panics (`unwrap` on `None`, out-of-bounds indexing) are
modelled by `Option`-valued results (`none` = the call aborts).  The
`std::collections::BinaryHeap` used by the beam search is modelled by its
actual vector-plus-sift algorithms (`sift_up` on push; pop swaps the last
element into the root and runs `sift_down_to_bottom`), so that tie-breaking
among equal `evaluated_score`s matches the Rust behaviour.
-/

/-- `const H: usize = 3` -/
def H : Nat := 3

/-- `const W: usize = 4` -/
def W : Nat := 4

/-- `const END_TURN: usize = 4` -/
def END_TURN : Nat := 4

/-- `const DX: [i64; 4] = [1, -1, 0, 0]` -/
def DX : List Int := [1, -1, 0, 0]

/-- `const DY: [i64; 4] = [0, 0, 1, -1]` -/
def DY : List Int := [0, 0, 1, -1]

/-- `const INF: ScoreType = ScoreType::MAX`, i.e. `i64::MAX = 2^63 - 1`. -/
def INF : Int := 2 ^ 63 - 1

/-- `struct Coord { y: i64, x: i64 }` -/
structure Coord where
  y : Int
  x : Int
deriving DecidableEq, Repr

/-- `impl Default for Coord` gives `y = 0, x = 0`. -/
instance : Inhabited Coord := ⟨⟨0, 0⟩⟩

/-- `struct MazeState` with its six fields. -/
structure MazeState where
  points : List (List Int)
  turn : Nat
  character : Coord
  game_score : Int
  evaluated_score : Int
  first_action : Option Nat
deriving DecidableEq, Repr

instance : Inhabited MazeState :=
  ⟨{ points := [], turn := 0, character := default, game_score := 0,
     evaluated_score := 0, first_action := none }⟩

/-- Board read `points[y][x]` (callers index in bounds; out of range reads
default to `0` where Rust would panic — every use below is guarded by
`legal_actions`). -/
def cellOf (g : List (List Int)) (y x : Nat) : Int :=
  (g.getD y []).getD x 0

/-- Board write `points[y][x] = v`. -/
def setCell (g : List (List Int)) (y x : Nat) (v : Int) : List (List Int) :=
  g.set y ((g.getD y []).set x v)

/-- `fn is_done(&self) -> bool { self.turn == END_TURN }` -/
def isDone (s : MazeState) : Bool :=
  s.turn == END_TURN

/-- `fn advance(&mut self, action: usize)`: move the character by
`(DY[action], DX[action])`; if the target cell holds a value `> 0`, add it to
`game_score` and zero the cell; increment `turn`. -/
def advance (s : MazeState) (action : Nat) : MazeState :=
  let cy := s.character.y + DY.getD action 0
  let cx := s.character.x + DX.getD action 0
  let v := cellOf s.points cy.toNat cx.toNat
  { s with
    character := ⟨cy, cx⟩
    points := if 0 < v then setCell s.points cy.toNat cx.toNat 0 else s.points
    game_score := if 0 < v then s.game_score + v else s.game_score
    turn := s.turn + 1 }

/-- `fn legal_actions(&self) -> Vec<usize>`: the actions `0..4` whose target
position stays inside the `H × W` board, in increasing order. -/
def legalActions (s : MazeState) : List Nat :=
  (List.range 4).filter fun a =>
    decide (0 ≤ s.character.y + DY.getD a 0) &&
    decide (s.character.y + DY.getD a 0 < (H : Int)) &&
    decide (0 ≤ s.character.x + DX.getD a 0) &&
    decide (s.character.x + DX.getD a 0 < (W : Int))

/-- `fn evaluate_score(&mut self) { self.evaluated_score = self.game_score }` -/
def evaluateScore (s : MazeState) : MazeState :=
  { s with evaluated_score := s.game_score }

/-- `fn greedy_action(&self) -> usize`: best-score fold over the legal
actions, starting from the sentinel `-INF` with a strict `>` comparison;
`none` models the final `best_action.unwrap()` panicking. -/
def greedy_action (s : MazeState) : Option Nat :=
  ((legalActions s).foldl
    (fun (acc : Int × Option Nat) a =>
      let ns := evaluateScore (advance s a)
      if acc.1 < ns.evaluated_score then (ns.evaluated_score, some a) else acc)
    (-INF, none)).2

/-- Score of the one-step successor by action `a` (its `evaluated_score`
after `advance` + `evaluate_score`). -/
def childScore (s : MazeState) (a : Nat) : Int :=
  (evaluateScore (advance s a)).evaluated_score

/-! ## `std::collections::BinaryHeap<MazeState>`

`impl Ord for MazeState` compares by `evaluated_score` only, so the heap key
is `key := evaluated_score`.  The heap is its backing vector, modelled as a
`List MazeState`; `push` appends and sifts up, `pop` swaps the last element
into the root and runs `sift_down_to_bottom` (hole walks to the bottom along
the larger child, the displaced element then sifts back up). -/

/-- Heap ordering key (`Ord for MazeState` compares `evaluated_score`). -/
def key (s : MazeState) : Int :=
  s.evaluated_score

/-- Swap the entries at positions `i` and `j`. -/
def lswap (l : List MazeState) (i j : Nat) : List MazeState :=
  (l.set i (l.getD j default)).set j (l.getD i default)

/-- Rust `BinaryHeap::sift_up(start, i)`, the while loop written with an
explicit iteration budget `fuel` so the definition is structurally recursive
(hence kernel-computable): the element at `i` climbs while it is strictly
greater than its parent and stays above `start`.  Each step moves from `i` to
`(i - 1) / 2 < i`, so any `fuel ≥ i` runs the loop to completion. -/
def siftUpF (start : Nat) : Nat → List MazeState → Nat → List MazeState
  | 0, l, _ => l
  | fuel + 1, l, i =>
    if i ≤ start then l
    else
      let p := (i - 1) / 2
      if key (l.getD p default) < key (l.getD i default) then
        siftUpF start fuel (lswap l i p) p
      else l

/-- `sift_up` with the sufficient budget `i`. -/
def siftUp (start : Nat) (l : List MazeState) (i : Nat) : List MazeState :=
  siftUpF start i l i

/-- `BinaryHeap::push`: append, then sift the new last element up. -/
def hpush (l : List MazeState) (x : MazeState) : List MazeState :=
  siftUp 0 (l ++ [x]) l.length

/-- `BinaryHeap::peek`: the root of the backing vector, if any. -/
def hpeek (l : List MazeState) : Option MazeState :=
  l.head?

/-- The hole-walking phase of Rust `BinaryHeap::sift_down_to_bottom(pos)`,
with an explicit iteration budget (the hole index at least doubles per step,
so `fuel = l.length` always suffices): while both children exist, move to the
larger child (the right one on ties); if only a left child remains, move
there.  Returns the new vector and the final hole position. -/
def siftDownLoopF : Nat → List MazeState → Nat → List MazeState × Nat
  | 0, l, hole => (l, hole)
  | fuel + 1, l, hole =>
    let child := 2 * hole + 1
    if child + 2 ≤ l.length then
      let child :=
        if key (l.getD child default) ≤ key (l.getD (child + 1) default)
        then child + 1 else child
      siftDownLoopF fuel (lswap l hole child) child
    else if child + 1 = l.length then (lswap l hole child, child)
    else (l, hole)

/-- Rust `BinaryHeap::sift_down_to_bottom(pos)`: walk the hole to the bottom,
then sift the displaced element back up (not above `pos`). -/
def siftDownToBottom (l : List MazeState) (pos : Nat) : List MazeState :=
  let r := siftDownLoopF l.length l pos
  siftUp pos r.1 r.2

/-- `BinaryHeap::pop`: remove the last element; if the heap is still
non-empty, swap it with the root and sift down.  Returns the removed maximum
and the remaining heap. -/
def hpop (l : List MazeState) : Option (MazeState × List MazeState) :=
  match l.getLast? with
  | none => none
  | some item =>
    let rest := l.dropLast
    if rest.isEmpty then some (item, [])
    else some (l.getD 0 default, siftDownToBottom (rest.set 0 item) 0)

/-! ## `fn beam_search_action(&self, beam_width: usize, beam_depth: usize)` -/

/-- One candidate built inside the beam loop: clone, `advance`,
`evaluate_score`, and at depth `0` (`t0 = true`) stamp
`first_action = Some(action)`. -/
def stampedChild (t0 : Bool) (s : MazeState) (a : Nat) : MazeState :=
  let ns := evaluateScore (advance s a)
  if t0 then { ns with first_action := some a } else ns

/-- Inner `for action in legal_actions` loop: push every stamped child of
`s` onto the next beam. -/
def expandInto (t0 : Bool) (s : MazeState) (next : List MazeState) :
    List MazeState :=
  (legalActions s).foldl (fun nb a => hpush nb (stampedChild t0 s a)) next

/-- Inner `for _ in 0..beam_width` loop: pop up to `w` states from `now` and
push each popped state's children onto `next` (a failed pop just skips). -/
def innerLoop (t0 : Bool) : Nat → List MazeState → List MazeState →
    List MazeState
  | 0, _, next => next
  | w + 1, now, next =>
    match hpop now with
    | none => innerLoop t0 w now next
    | some (st, now') => innerLoop t0 w now' (expandInto t0 st next)

/-- Outer `for t in 0..beam_depth` loop; `iters` counts the remaining depth
levels and `t0` marks `t == 0`.  After each level `best_state` is the peek of
the new beam; `best_state.unwrap()` on an empty beam is the `none` result,
and a terminal best state breaks out early. -/
def beamLoop (width : Nat) (t0 : Bool) :
    Nat → List MazeState → Option MazeState → Option MazeState
  | 0, _, best => best
  | iters + 1, now, _ =>
    let next := innerLoop t0 width now []
    match hpeek next with
    | none => none
    | some b => if isDone b then some b else beamLoop width false iters next (some b)

/-- `beam_search_action`: run the beam loop from the singleton heap `{self}`;
the result is the `first_action` of the final best state.  `none` models the
two possible `unwrap` panics (empty frontier, or `first_action == None`). -/
def beam_search_action (s : MazeState) (width depth : Nat) : Option Nat :=
  match beamLoop width true depth (hpush [] s) none with
  | none => none
  | some b => b.first_action

/-! ## `fn from_seed(seed: u64) -> Self` -/

/-- One step of the cell-filling loop of `from_seed`: skip the start cell
`(y, x)`, otherwise draw `gen_range(0..10)` (the `acc.1` counter is the index
of the next raw draw) and write it at `(j, i)`. -/
def fillCell (rng : Nat → Nat) (y x j : Nat) (acc : Nat × List (List Int))
    (i : Nat) : Nat × List (List Int) :=
  if j = y ∧ i = x then acc
  else (acc.1 + 1, setCell acc.2 j i (Int.ofNat (rng acc.1 % 10)))

/-- The inner `for i in 0..W` loop of `from_seed`. -/
def fillRow (rng : Nat → Nat) (y x : Nat) (acc : Nat × List (List Int))
    (j : Nat) : Nat × List (List Int) :=
  (List.range W).foldl (fillCell rng y x j) acc

/-- `fn from_seed`: the external `ChaCha8Rng` generator is modelled by an
arbitrary stream `rng : Nat → Nat` of raw draws, one per `gen_range` call in
program order; `gen_range(0..n)` is modelled as `rng k % n`, which always
lands in `0..n` — any concrete seeded generator is one such stream (take
`rng k` to be the `k`-th sampled value itself).  The board starts all zero;
every cell except the start position `(y, x)` is filled row-major with
`gen_range(0..10)`. -/
def fromSeed (rng : Nat → Nat) : MazeState :=
  let y := rng 0 % H
  let x := rng 1 % W
  let filled :=
    (List.range H).foldl (fillRow rng y x)
      (2, List.replicate H (List.replicate W 0))
  { points := filled.2
    turn := 0
    character := ⟨(y : Int), (x : Int)⟩
    game_score := 0
    evaluated_score := 0
    first_action := none }

/-! ## Driver-level iteration of `advance` -/

/-- A sequence of `advance` calls. -/
def advanceSeq (s : MazeState) (l : List Nat) : MazeState :=
  l.foldl advance s

/-- Every action of the path is legal in the state where it is applied. -/
def LegalPath : MazeState → List Nat → Prop
  | _, [] => True
  | s, a :: l => a ∈ legalActions s ∧ LegalPath (advance s a) l

instance : ∀ s l, Decidable (LegalPath s l)
  | _, [] => .isTrue trivial
  | s, a :: l =>
    have : Decidable (LegalPath (advance s a) l) := instDecidableLegalPath _ l
    instDecidableAnd

/-- Every action of the path is legal and is taken from a non-terminal
state. -/
def ValidPath : MazeState → List Nat → Prop
  | _, [] => True
  | s, a :: l => a ∈ legalActions s ∧ ¬ isDone s ∧ ValidPath (advance s a) l

instance : ∀ s l, Decidable (ValidPath s l)
  | _, [] => .isTrue trivial
  | s, a :: l =>
    have : Decidable (ValidPath (advance s a) l) := instDecidableValidPath _ l
    instDecidableAnd

/-- Sum of the board values collected (i.e. of the cells zeroed) along a
path: a step contributes its target cell's value exactly when that value is
positive, which is exactly when `advance` zeroes the cell. -/
def collectedAlong : MazeState → List Nat → Int
  | _, [] => 0
  | s, a :: l =>
    let cy := s.character.y + DY.getD a 0
    let cx := s.character.x + DX.getD a 0
    let v := cellOf s.points cy.toNat cx.toNat
    (if 0 < v then v else 0) + collectedAlong (advance s a) l

/-- The position `(y, x)` lies on the `H × W` board. -/
def InBoundsPos (y x : Int) : Prop :=
  0 ≤ y ∧ y < (H : Int) ∧ 0 ≤ x ∧ x < (W : Int)

instance (y x : Int) : Decidable (InBoundsPos y x) := by
  unfold InBoundsPos
  infer_instance

/-! ## Basic lemmas on the transition model -/

theorem advance_character (s : MazeState) (a : Nat) :
    (advance s a).character =
      ⟨s.character.y + DY.getD a 0, s.character.x + DX.getD a 0⟩ := rfl

theorem advance_turn (s : MazeState) (a : Nat) :
    (advance s a).turn = s.turn + 1 := rfl

theorem advance_first_action (s : MazeState) (a : Nat) :
    (advance s a).first_action = s.first_action := rfl

theorem advance_game_score_eq (s : MazeState) (a : Nat) :
    (advance s a).game_score =
      (if 0 < cellOf s.points (s.character.y + DY.getD a 0).toNat
              (s.character.x + DX.getD a 0).toNat
       then s.game_score + cellOf s.points (s.character.y + DY.getD a 0).toNat
              (s.character.x + DX.getD a 0).toNat
       else s.game_score) := rfl

theorem advance_game_score_ge (s : MazeState) (a : Nat) :
    s.game_score ≤ (advance s a).game_score := by
  rw [advance_game_score_eq]
  split
  · linarith
  · exact le_refl _

theorem childScore_eq (s : MazeState) (a : Nat) :
    childScore s a = (advance s a).game_score := rfl

theorem childScore_ge (s : MazeState) (a : Nat) :
    s.game_score ≤ childScore s a :=
  advance_game_score_ge s a

theorem mem_legalActions (s : MazeState) (a : Nat) :
    a ∈ legalActions s ↔ a < 4 ∧
      InBoundsPos (s.character.y + DY.getD a 0) (s.character.x + DX.getD a 0) := by
  simp [legalActions, List.mem_filter, List.mem_range, InBoundsPos, and_assoc]

theorem legalActions_sorted (s : MazeState) :
    List.Pairwise (· < ·) (legalActions s) :=
  List.Pairwise.sublist (List.filter_sublist _) (List.pairwise_lt_range 4)

theorem advance_inBounds (s : MazeState) (a : Nat) (ha : a ∈ legalActions s) :
    InBoundsPos (advance s a).character.y (advance s a).character.x := by
  rw [advance_character]
  exact ((mem_legalActions s a).1 ha).2

theorem legalActions_ne_nil (s : MazeState)
    (hb : InBoundsPos s.character.y s.character.x) : legalActions s ≠ [] := by
  obtain ⟨hy0, hyH, hx0, hxW⟩ := hb
  by_cases hx : s.character.x + 1 < (W : Int)
  · have h0 : 0 ∈ legalActions s := by
      rw [mem_legalActions]
      refine ⟨by norm_num, ?_⟩
      simp only [DY, DX, List.getD, InBoundsPos]
      constructor <;> [skip; constructor] <;> [skip; skip; constructor] <;> simp <;> omega
    exact List.ne_nil_of_mem h0
  · have h1 : 1 ∈ legalActions s := by
      rw [mem_legalActions]
      refine ⟨by norm_num, ?_⟩
      simp only [DY, DX, List.getD, InBoundsPos]
      have hW : (W : Int) = 4 := by norm_num [W]
      constructor <;> [skip; constructor] <;> [skip; skip; constructor] <;> simp <;> omega
    exact List.ne_nil_of_mem h1

/-! ## Cell read/write lemmas -/

theorem cellOf_setCell_ne (g : List (List Int)) (y x j i : Nat) (v : Int)
    (h : ¬(j = y ∧ i = x)) : cellOf (setCell g y x v) j i = cellOf g j i := by
  simp only [cellOf, setCell, List.getD_eq_getElem?_getD, List.getElem?_set]
  by_cases hj : y = j
  · subst hj
    have hx : x ≠ i := by tauto
    by_cases hy : y < g.length
    · simp [hy, List.getElem?_set, hx, List.getD_eq_getElem?_getD]
    · simp [hy, List.getElem?_eq_none (Nat.le_of_not_lt hy)]
  · simp [hj]

theorem cellOf_default_of_oob (g : List (List Int)) (y x : Nat)
    (h : ¬(y < g.length ∧ x < (g.getD y []).length)) : cellOf g y x = 0 := by
  unfold cellOf
  rcases not_and_or.1 h with hy | hx
  · rw [List.getD_eq_getElem?_getD g, List.getElem?_eq_none (by omega)]
    simp
  · rw [List.getD_eq_getElem?_getD _ x, List.getElem?_eq_none (by omega)]
    simp

theorem cellOf_setCell_same (g : List (List Int)) (y x : Nat) (v : Int)
    (hy : y < g.length) (hx : x < (g.getD y []).length) :
    cellOf (setCell g y x v) y x = v := by
  have hx2 : x < (g[y]?.getD []).length := by
    simpa [List.getD_eq_getElem?_getD] using hx
  rw [List.getElem?_eq_getElem hy] at hx2
  simp only [Option.getD_some] at hx2
  simp [cellOf, setCell, List.getD_eq_getElem?_getD, List.getElem?_set, hy, hx2]

/-- C4 counterexample state: the cell to the right of the agent holds `-1`,
a nonzero value that `advance` does not collect and does not zero. -/
def cexState4 : MazeState :=
  { points := [[0, -1, 0, 0], [0, 0, 0, 0], [0, 0, 0, 0]], turn := 0,
    character := ⟨0, 0⟩, game_score := 0, evaluated_score := 0,
    first_action := none }

/-- C4, counterexample: action `0` (Right) is legal and targets the cell
`(0,1)` whose value `-1` is nonzero, yet `advance` leaves both the cumulative
score and the cell unchanged — contradicting the claim that any nonzero
target value is added to the score and the cell zeroed. -/
theorem advance_nonzero_cex :
    (0 : Nat) ∈ legalActions cexState4 ∧
    cellOf cexState4.points 0 1 = -1 ∧ (-1 : Int) ≠ 0 ∧
    (advance cexState4 0).game_score = cexState4.game_score ∧
    cellOf (advance cexState4 0).points 0 1 = -1 := by decide

/-- C4 (amended: the collection condition is "positive", not "nonzero"): for
every state and legal action, `advance` moves the agent by the action's
coordinate delta and increments the turn by one; if the target cell's value
is positive it is added to the score and the cell zeroed (other cells
untouched), otherwise score and board are unchanged. -/
theorem advance_spec (s : MazeState) (a : Nat) (ha : a ∈ legalActions s) :
    (advance s a).character =
      ⟨s.character.y + DY.getD a 0, s.character.x + DX.getD a 0⟩ ∧
    (advance s a).turn = s.turn + 1 ∧
    (0 < cellOf s.points (s.character.y + DY.getD a 0).toNat
          (s.character.x + DX.getD a 0).toNat →
      (advance s a).game_score = s.game_score +
        cellOf s.points (s.character.y + DY.getD a 0).toNat
          (s.character.x + DX.getD a 0).toNat ∧
      cellOf (advance s a).points (s.character.y + DY.getD a 0).toNat
          (s.character.x + DX.getD a 0).toNat = 0 ∧
      (∀ j i : Nat,
        ¬(j = (s.character.y + DY.getD a 0).toNat ∧
          i = (s.character.x + DX.getD a 0).toNat) →
        cellOf (advance s a).points j i = cellOf s.points j i)) ∧
    (cellOf s.points (s.character.y + DY.getD a 0).toNat
          (s.character.x + DX.getD a 0).toNat ≤ 0 →
      (advance s a).game_score = s.game_score ∧
      (advance s a).points = s.points) := by
  refine ⟨rfl, rfl, ?_, ?_⟩
  · intro hv
    have hpts : (advance s a).points =
        setCell s.points (s.character.y + DY.getD a 0).toNat
          (s.character.x + DX.getD a 0).toNat 0 := by
      simp only [advance]
      rw [if_pos hv]
    have hbounds : (s.character.y + DY.getD a 0).toNat < s.points.length ∧
        (s.character.x + DX.getD a 0).toNat <
          (s.points.getD (s.character.y + DY.getD a 0).toNat []).length := by
      by_contra hb
      rw [cellOf_default_of_oob _ _ _ hb] at hv
      exact lt_irrefl 0 hv
    refine ⟨?_, ?_, ?_⟩
    · rw [advance_game_score_eq, if_pos hv]
    · rw [hpts, cellOf_setCell_same _ _ _ _ hbounds.1 hbounds.2]
    · intro j i hji
      rw [hpts, cellOf_setCell_ne _ _ _ _ _ _ hji]
  · intro hv
    constructor
    · rw [advance_game_score_eq, if_neg (not_lt.2 hv)]
    · simp only [advance]
      rw [if_neg (not_lt.2 hv)]

/-- C4 witness state: agent at the origin of a board with positive cells. -/
def wState4 : MazeState :=
  { points := [[0, 3, 0, 0], [5, 0, 0, 0], [0, 0, 9, 0]], turn := 0,
    character := ⟨0, 0⟩, game_score := 0, evaluated_score := 0,
    first_action := none }

/-- C4 witness: `advance_spec` at a concrete state and legal action. -/
theorem advance_spec_witness :
    (advance wState4 2).character = ⟨1, 0⟩ ∧
    (advance wState4 2).turn = 1 ∧
    (advance wState4 2).game_score = wState4.game_score + 5 ∧
    cellOf (advance wState4 2).points 1 0 = 0 := by
  have h := advance_spec wState4 2 (by decide)
  refine ⟨h.1, h.2.1, ?_, ?_⟩
  · exact ((h.2.2.1 (by decide)).1).trans (by decide)
  · exact (h.2.2.1 (by decide)).2.1

/-! ## C5: score monotonicity and the collected-sum invariant -/

theorem advanceSeq_append (s : MazeState) (l1 l2 : List Nat) :
    advanceSeq s (l1 ++ l2) = advanceSeq (advanceSeq s l1) l2 :=
  List.foldl_append ..

theorem advanceSeq_game_score_ge (l : List Nat) :
    ∀ s : MazeState, s.game_score ≤ (advanceSeq s l).game_score := by
  induction l with
  | nil => intro s; exact le_refl _
  | cons a l ih =>
    intro s
    exact le_trans (advance_game_score_ge s a) (ih (advance s a))

theorem advanceSeq_game_score_collected (l : List Nat) :
    ∀ s : MazeState,
      (advanceSeq s l).game_score = s.game_score + collectedAlong s l := by
  induction l with
  | nil => intro s; simp [advanceSeq, collectedAlong]
  | cons a l ih =>
    intro s
    show (advanceSeq (advance s a) l).game_score = _
    rw [ih (advance s a), advance_game_score_eq, collectedAlong]
    split <;> ring

/-- C5: across any legal sequence of `advance` calls from a valid initial
state (cumulative score `0`), the cumulative score never decreases, and after
the sequence it equals the sum of the board values of the cells zeroed along
the path (`collectedAlong`). -/
theorem game_score_monotone_and_sum (s : MazeState) (l1 l2 : List Nat)
    (hpath : LegalPath s (l1 ++ l2)) (h0 : s.game_score = 0) :
    (advanceSeq s l1).game_score ≤ (advanceSeq s (l1 ++ l2)).game_score ∧
    (advanceSeq s (l1 ++ l2)).game_score = collectedAlong s (l1 ++ l2) := by
  constructor
  · rw [advanceSeq_append]
    exact advanceSeq_game_score_ge l2 (advanceSeq s l1)
  · rw [advanceSeq_game_score_collected (l1 ++ l2) s, h0, zero_add]

/-- C5 witness state. -/
def wState5 : MazeState :=
  { points := [[0, 3, 0, 0], [5, 0, 0, 0], [0, 0, 9, 0]], turn := 0,
    character := ⟨0, 1⟩, game_score := 0, evaluated_score := 0,
    first_action := none }

/-- C5 witness: a concrete legal two-step path; scores `0 ≤ 3 ≤ 3` and the
final score is the collected sum. -/
theorem game_score_monotone_and_sum_witness :
    LegalPath wState5 ([1] ++ [2]) ∧ wState5.game_score = 0 ∧
    ((advanceSeq wState5 [1]).game_score ≤
        (advanceSeq wState5 ([1] ++ [2])).game_score ∧
      (advanceSeq wState5 ([1] ++ [2])).game_score =
        collectedAlong wState5 ([1] ++ [2])) :=
  ⟨by decide, by decide,
    game_score_monotone_and_sum wState5 [1] [2] (by decide) (by decide)⟩

/-! ## C6: reachable states stay in bounds with `turn ≤ END_TURN` -/

theorem validPath_bounds_aux (l : List Nat) :
    ∀ s : MazeState, InBoundsPos s.character.y s.character.x →
      s.turn ≤ END_TURN → ValidPath s l →
      InBoundsPos (advanceSeq s l).character.y (advanceSeq s l).character.x ∧
        (advanceSeq s l).turn ≤ END_TURN := by
  induction l with
  | nil => intro s hb ht _; exact ⟨hb, ht⟩
  | cons a l ih =>
    intro s hb ht hp
    obtain ⟨ha, hnd, hp'⟩ := hp
    have hdone : s.turn ≠ END_TURN := by
      simpa [isDone] using hnd
    refine ih (advance s a) (advance_inBounds s a ha) ?_ hp'
    rw [advance_turn]
    omega

/-- C6: from a valid initial state (in-bounds agent, `turn = 0`), applying
`advance` only with legal actions and only while non-terminal keeps the agent
position inside the `H × W` board and keeps `turn ≤ END_TURN`; in particular
no such `advance` indexes the board out of bounds. -/
theorem reachable_state_bounds (s : MazeState) (l : List Nat)
    (hb : InBoundsPos s.character.y s.character.x) (ht : s.turn = 0)
    (hp : ValidPath s l) :
    InBoundsPos (advanceSeq s l).character.y (advanceSeq s l).character.x ∧
      (advanceSeq s l).turn ≤ END_TURN :=
  validPath_bounds_aux l s hb (by omega) hp

/-- C6 witness state. -/
def wState6 : MazeState :=
  { points := [[0, 3, 0, 0], [5, 0, 0, 0], [0, 0, 9, 0]], turn := 0,
    character := ⟨1, 1⟩, game_score := 0, evaluated_score := 0,
    first_action := none }

/-- C6 witness: a concrete four-step valid path stays in bounds with
`turn ≤ END_TURN`. -/
theorem reachable_state_bounds_witness :
    InBoundsPos wState6.character.y wState6.character.x ∧ wState6.turn = 0 ∧
    ValidPath wState6 [0, 2, 0, 3] ∧
    (InBoundsPos (advanceSeq wState6 [0, 2, 0, 3]).character.y
        (advanceSeq wState6 [0, 2, 0, 3]).character.x ∧
      (advanceSeq wState6 [0, 2, 0, 3]).turn ≤ END_TURN) :=
  ⟨by decide, by decide, by decide,
    reachable_state_bounds wState6 [0, 2, 0, 3] (by decide) (by decide)
      (by decide)⟩

/-! ## C8: exact characterisation of `legal_actions` -/

/-- C8: for an in-bounds agent, `legal_actions` contains exactly the
directional actions whose target stays on the board, under the fixed mapping
`0`: Right (`x+1`), `1`: Left (`x-1`), `2`: Down (`y+1`), `3`: Up (`y-1`). -/
theorem legalActions_exact (s : MazeState)
    (hb : InBoundsPos s.character.y s.character.x) (a : Nat) :
    a ∈ legalActions s ↔
      ((a = 0 ∧ InBoundsPos s.character.y (s.character.x + 1)) ∨
       (a = 1 ∧ InBoundsPos s.character.y (s.character.x - 1)) ∨
       (a = 2 ∧ InBoundsPos (s.character.y + 1) s.character.x) ∨
       (a = 3 ∧ InBoundsPos (s.character.y - 1) s.character.x)) := by
  rw [mem_legalActions]
  match a with
  | 0 => simp [DX, DY, InBoundsPos]
  | 1 => simp [DX, DY, InBoundsPos, sub_eq_add_neg]
  | 2 => simp [DX, DY, InBoundsPos]
  | 3 => simp [DX, DY, InBoundsPos, sub_eq_add_neg]
  | (n + 4) => simp

/-- C8 witness state. -/
def wState8 : MazeState :=
  { points := [[0, 3, 0, 0], [5, 0, 0, 0], [0, 0, 9, 0]], turn := 0,
    character := ⟨0, 0⟩, game_score := 0, evaluated_score := 0,
    first_action := none }

/-- C8 witness: the characterisation instantiated at a concrete in-bounds
state and at action `1` (Left, illegal from column 0). -/
theorem legalActions_exact_witness :
    InBoundsPos wState8.character.y wState8.character.x ∧
    ((1 ∈ legalActions wState8) ↔
      ((1 = 0 ∧ InBoundsPos wState8.character.y (wState8.character.x + 1)) ∨
       (1 = 1 ∧ InBoundsPos wState8.character.y (wState8.character.x - 1)) ∨
       (1 = 2 ∧ InBoundsPos (wState8.character.y + 1) wState8.character.x) ∨
       (1 = 3 ∧ InBoundsPos (wState8.character.y - 1) wState8.character.x))) :=
  ⟨by decide, legalActions_exact wState8 (by decide) 1⟩

/-! ## The greedy fold

`greedy_action` folds over the legal actions tracking `(best_score,
best_action)` starting from the sentinel `(-INF, None)`.  `gfold_found`
characterises the fold's result: it returns the first action attaining the
strict maximum of the successor scores, provided some successor score beats
the running best. -/

/-- One step of the `greedy_action` loop. -/
def gstep (s : MazeState) (acc : Int × Option Nat) (a : Nat) : Int × Option Nat :=
  let ns := evaluateScore (advance s a)
  if acc.1 < ns.evaluated_score then (ns.evaluated_score, some a) else acc

theorem greedy_action_eq (s : MazeState) :
    greedy_action s = ((legalActions s).foldl (gstep s) (-INF, none)).2 := rfl

theorem gstep_eq (s : MazeState) (acc : Int × Option Nat) (a : Nat) :
    gstep s acc a =
      if acc.1 < childScore s a then (childScore s a, some a) else acc := rfl

/-- If no successor score beats the running best, the fold is the identity. -/
theorem gfold_stay (s : MazeState) (l : List Nat) :
    ∀ acc : Int × Option Nat, (∀ b ∈ l, childScore s b ≤ acc.1) →
      l.foldl (gstep s) acc = acc := by
  induction l with
  | nil => intro acc _; rfl
  | cons a l ih =>
    intro acc hle
    rw [List.foldl_cons, gstep_eq, if_neg (not_lt.2 (hle a (List.mem_cons_self a l)))]
    exact ih acc fun b hb => hle b (List.mem_cons_of_mem a hb)

/-- If some successor score beats the running best `bs`, the fold returns the
first action `a` attaining the strict maximum: everything before `a` scores
strictly below it, everything after at most it. -/
theorem gfold_found (s : MazeState) (l : List Nat) :
    ∀ (bs : Int) (ba : Option Nat), (∃ b ∈ l, bs < childScore s b) →
      ∃ l1 a l2, l = l1 ++ a :: l2 ∧
        l.foldl (gstep s) (bs, ba) = (childScore s a, some a) ∧
        bs < childScore s a ∧
        (∀ b ∈ l1, childScore s b < childScore s a) ∧
        (∀ b ∈ l2, childScore s b ≤ childScore s a) := by
  induction l with
  | nil => intro bs ba h; simp at h
  | cons c l ih =>
    intro bs ba h
    rw [List.foldl_cons]
    by_cases hc : bs < childScore s c
    · rw [gstep_eq, if_pos hc]
      by_cases hr : ∃ b ∈ l, childScore s c < childScore s b
      · obtain ⟨l1, a, l2, heq, hfold, hgt, hl1, hl2⟩ :=
          ih (childScore s c) (some c) hr
        refine ⟨c :: l1, a, l2, by rw [heq]; rfl, hfold, lt_trans hc hgt, ?_, hl2⟩
        intro b hb
        rcases List.mem_cons.1 hb with hbc | hb1
        · subst hbc; exact hgt
        · exact hl1 b hb1
      · push_neg at hr
        exact ⟨[], c, l, rfl, gfold_stay s l _ hr, hc, by simp, hr⟩
    · rw [gstep_eq, if_neg hc]
      have hrest : ∃ b ∈ l, bs < childScore s b := by
        obtain ⟨b, hbmem, hbs⟩ := h
        rcases List.mem_cons.1 hbmem with hbc | hb1
        · subst hbc; exact absurd hbs hc
        · exact ⟨b, hb1, hbs⟩
      obtain ⟨l1, a, l2, heq, hfold, hgt, hl1, hl2⟩ := ih bs ba hrest
      refine ⟨c :: l1, a, l2, by rw [heq]; rfl, hfold, hgt, ?_, hl2⟩
      intro b hb
      rcases List.mem_cons.1 hb with hbc | hb1
      · subst hbc; exact lt_of_le_of_lt (not_lt.1 hc) hgt
      · exact hl1 b hb1

/-! ## Heap lemmas

`RootMax l` is the only heap invariant the proofs need: the root bounds every
element.  `siftUpF_root` characterises the root after a push: the new element
reaches the root exactly when its key strictly exceeds the old root's key, so
a heap built by pushes from empty has as root the *first*-pushed element
among those of maximal key — matching the first-seen-wins tie rule of the
greedy fold. -/

theorem length_lswap (l : List MazeState) (i j : Nat) :
    (lswap l i j).length = l.length := by
  simp [lswap]

theorem mem_of_mem_lswap {l : List MazeState} {i j : Nat} {y : MazeState}
    (hi : i < l.length) (hj : j < l.length) (h : y ∈ lswap l i j) : y ∈ l := by
  unfold lswap at h
  rcases List.mem_or_eq_of_mem_set h with h1 | rfl
  · rcases List.mem_or_eq_of_mem_set h1 with h2 | rfl
    · exact h2
    · rw [List.getD_eq_getElem _ _ hj]
      exact List.getElem_mem hj
  · rw [List.getD_eq_getElem _ _ hi]
    exact List.getElem_mem hi

theorem lswap_getD_snd (l : List MazeState) (i j : Nat) (hj : j < l.length) :
    (lswap l i j).getD j default = l.getD i default := by
  simp [lswap, List.getD_eq_getElem?_getD, List.getElem?_set, List.length_set, hj]

theorem lswap_getD_fst (l : List MazeState) (i j : Nat) (hi : i < l.length)
    (hne : i ≠ j) :
    (lswap l i j).getD i default = l.getD j default := by
  simp [lswap, List.getD_eq_getElem?_getD, List.getElem?_set, Ne.symm hne, hi]

theorem lswap_getD_other (l : List MazeState) (i j q : Nat) (h1 : q ≠ i)
    (h2 : q ≠ j) :
    (lswap l i j).getD q default = l.getD q default := by
  simp [lswap, List.getD_eq_getElem?_getD, List.getElem?_set, Ne.symm h1, Ne.symm h2]

theorem siftUpF_length (start : Nat) :
    ∀ (fuel i : Nat) (l : List MazeState),
      (siftUpF start fuel l i).length = l.length := by
  intro fuel
  induction fuel with
  | zero => intro i l; rfl
  | succ fuel ih =>
    intro i l
    simp only [siftUpF]
    split
    · rfl
    · split
      · rw [ih, length_lswap]
      · rfl

theorem siftUpF_mem (start : Nat) :
    ∀ (fuel i : Nat) (l : List MazeState) (y : MazeState), i < l.length →
      y ∈ siftUpF start fuel l i → y ∈ l := by
  intro fuel
  induction fuel with
  | zero => intro i l y _ h; exact h
  | succ fuel ih =>
    intro i l y hi h
    simp only [siftUpF] at h
    split at h
    · exact h
    · rename_i hstart
      have hipos : 1 ≤ i := by omega
      have hp : (i - 1) / 2 < l.length := by omega
      split at h
      · have hmem := ih _ _ y (by rw [length_lswap]; exact hp) h
        exact mem_of_mem_lswap hi hp hmem
      · exact h

theorem siftUpF_root :
    ∀ (fuel i : Nat) (l : List MazeState), i ≤ fuel → i < l.length →
      (∀ j, j < l.length → j ≠ i →
        key (l.getD j default) ≤ key (l.getD 0 default)) →
      (siftUpF 0 fuel l i).getD 0 default =
        (if key (l.getD 0 default) < key (l.getD i default) then l.getD i default
         else l.getD 0 default) := by
  intro fuel
  induction fuel with
  | zero =>
    intro i l hif _ _
    have hi0 : i = 0 := Nat.le_zero.1 hif
    subst hi0
    rw [if_neg (lt_irrefl _)]
    rfl
  | succ fuel ih =>
    intro i l hif hil hmax
    by_cases hi0 : i = 0
    · subst hi0
      simp only [siftUpF, Nat.le_refl, if_pos]
      rw [if_neg (lt_irrefl _)]
    · have hipos : 1 ≤ i := by omega
      simp only [siftUpF]
      rw [if_neg (by omega : ¬ i ≤ 0)]
      have hplt : (i - 1) / 2 < i := by omega
      have hpl : (i - 1) / 2 < l.length := lt_trans hplt hil
      by_cases hcmp :
          key (l.getD ((i - 1) / 2) default) < key (l.getD i default)
      · rw [if_pos hcmp]
        have hlen' : (lswap l i ((i - 1) / 2)).length = l.length :=
          length_lswap ..
        have hsnd : (lswap l i ((i - 1) / 2)).getD ((i - 1) / 2) default =
            l.getD i default := lswap_getD_snd l i _ hpl
        by_cases hpz : (i - 1) / 2 = 0
        · -- the element climbs into the root slot
          rw [hpz] at hsnd hcmp ⊢
          have hmax' : ∀ j, j < (lswap l i 0).length → j ≠ 0 →
              key ((lswap l i 0).getD j default) ≤
                key ((lswap l i 0).getD 0 default) := by
            intro j hj hj0
            rw [hpz] at hlen'
            rw [hlen'] at hj
            rw [hsnd]
            by_cases hji : j = i
            · subst hji
              rw [lswap_getD_fst l j 0 hil (by omega)]
              exact le_of_lt hcmp
            · rw [lswap_getD_other l i 0 j hji hj0]
              exact le_trans (hmax j hj hji) (le_of_lt hcmp)
          have hrec := ih 0 (lswap l i 0) (Nat.zero_le _)
            (by rw [length_lswap]; omega) hmax'
          rw [hrec, if_neg (lt_irrefl _), hsnd, if_pos hcmp]
        · -- the root slot is untouched by this swap
          have hroot' : (lswap l i ((i - 1) / 2)).getD 0 default =
              l.getD 0 default :=
            lswap_getD_other l i _ 0 (by omega) (by omega)
          have hmax' : ∀ j, j < (lswap l i ((i - 1) / 2)).length →
              j ≠ (i - 1) / 2 →
              key ((lswap l i ((i - 1) / 2)).getD j default) ≤
                key ((lswap l i ((i - 1) / 2)).getD 0 default) := by
            intro j hj hjp
            rw [hlen'] at hj
            rw [hroot']
            by_cases hji : j = i
            · subst hji
              rw [lswap_getD_fst l j _ hil (by omega)]
              exact hmax _ hpl (by omega)
            · by_cases hj0 : j = 0
              · subst hj0
                rw [hroot']
              · rw [lswap_getD_other l i _ j hji hjp]
                exact hmax j hj hji
          have hrec := ih ((i - 1) / 2) (lswap l i ((i - 1) / 2)) (by omega)
            (by rw [hlen']; exact hpl) hmax'
          rw [hrec, hroot', hsnd]
      · rw [if_neg hcmp]
        have h1 : key (l.getD i default) ≤ key (l.getD ((i - 1) / 2) default) :=
          not_lt.1 hcmp
        have h2 : key (l.getD ((i - 1) / 2) default) ≤
            key (l.getD 0 default) := hmax _ hpl (by omega)
        rw [if_neg (not_lt.2 (le_trans h1 h2))]

theorem hpush_length (l : List MazeState) (x : MazeState) :
    (hpush l x).length = l.length + 1 := by
  unfold hpush siftUp
  rw [siftUpF_length]
  simp

theorem hpush_ne_nil (l : List MazeState) (x : MazeState) : hpush l x ≠ [] := by
  intro h
  have := hpush_length l x
  rw [h] at this
  simp at this

theorem mem_of_mem_hpush {l : List MazeState} {x y : MazeState}
    (h : y ∈ hpush l x) : y ∈ l ∨ y = x := by
  unfold hpush siftUp at h
  have := siftUpF_mem 0 l.length l.length (l ++ [x]) y (by simp) h
  simpa using this

theorem hpush_nil (x : MazeState) : hpush [] x = [x] := rfl

/-- The single heap invariant the proofs need: the root bounds every
element's key. -/
def RootMax (l : List MazeState) : Prop :=
  ∀ y ∈ l, key y ≤ key (l.getD 0 default)

theorem hpush_root (l : List MazeState) (x : MazeState) (hne : l ≠ [])
    (hmax : RootMax l) :
    (hpush l x).getD 0 default =
      if key (l.getD 0 default) < key x then x else l.getD 0 default := by
  have hlen : l.length < (l ++ [x]).length := by simp
  have hx : (l ++ [x]).getD l.length default = x := by
    rw [List.getD_eq_getElem?_getD, List.getElem?_append_right (le_refl _)]
    simp
  have h0 : (l ++ [x]).getD 0 default = l.getD 0 default := by
    rw [List.getD_eq_getElem?_getD,
      List.getElem?_append_left (List.length_pos.2 hne),
      ← List.getD_eq_getElem?_getD]
  have hmax' : ∀ j, j < (l ++ [x]).length → j ≠ l.length →
      key ((l ++ [x]).getD j default) ≤ key ((l ++ [x]).getD 0 default) := by
    intro j hj hjne
    have hj' : j < l.length := by
      simp only [List.length_append, List.length_cons, List.length_nil] at hj
      omega
    have hgj : (l ++ [x]).getD j default = l.getD j default := by
      rw [List.getD_eq_getElem?_getD, List.getElem?_append_left hj',
        ← List.getD_eq_getElem?_getD]
    rw [hgj, h0]
    refine hmax _ ?_
    rw [List.getD_eq_getElem _ _ hj']
    exact List.getElem_mem hj'
  show (siftUpF 0 l.length (l ++ [x]) l.length).getD 0 default = _
  rw [siftUpF_root l.length l.length (l ++ [x]) (le_refl _) hlen hmax', hx, h0]

theorem rootMax_hpush (l : List MazeState) (x : MazeState)
    (hmax : RootMax l) : RootMax (hpush l x) := by
  rcases eq_or_ne l [] with rfl | hne
  · rw [hpush_nil]
    intro y hy
    rcases List.mem_singleton.1 hy with rfl
    exact le_refl _
  · intro y hy
    rw [hpush_root l x hne hmax]
    rcases mem_of_mem_hpush hy with hyl | rfl
    · have hb := hmax y hyl
      split
      · exact le_trans hb (le_of_lt (by assumption))
      · exact hb
    · split
      · exact le_refl _
      · exact not_lt.1 (by assumption)

/-- The running strict maximum of a key fold: the combinator keeps the
earlier element on ties, exactly like the heap root under pushes. -/
def runMax (c : MazeState) (cs : List MazeState) : MazeState :=
  cs.foldl (fun m d => if key m < key d then d else m) c

/-- Pushing a list of states onto a non-empty `RootMax` heap yields a
non-empty `RootMax` heap whose root is the running strict maximum of the old
root and the pushed states, in push order. -/
theorem foldl_hpush_root (cs : List MazeState) :
    ∀ acc : List MazeState, acc ≠ [] → RootMax acc →
      List.foldl hpush acc cs ≠ [] ∧ RootMax (List.foldl hpush acc cs) ∧
      (List.foldl hpush acc cs).getD 0 default =
        runMax (acc.getD 0 default) cs := by
  induction cs with
  | nil => intro acc hne hmax; exact ⟨hne, hmax, rfl⟩
  | cons c cs ih =>
    intro acc hne hmax
    rw [List.foldl_cons]
    obtain ⟨h1, h2, h3⟩ := ih (hpush acc c) (hpush_ne_nil _ _)
      (rootMax_hpush _ _ hmax)
    exact ⟨h1, h2, by rw [h3, hpush_root acc c hne hmax]; rfl⟩

theorem runMax_stay (cs : List MazeState) :
    ∀ c : MazeState, (∀ b ∈ cs, key b ≤ key c) → runMax c cs = c := by
  induction cs with
  | nil => intro c _; rfl
  | cons b cs ih =>
    intro c hle
    show runMax (if key c < key b then b else c) cs = c
    rw [if_neg (not_lt.2 (hle b (List.mem_cons_self b cs)))]
    exact ih c fun d hd => hle d (List.mem_cons_of_mem b hd)

theorem runMax_aux (c : MazeState) (d2 : List MazeState)
    (h2 : ∀ b ∈ d2, key b ≤ key c) :
    ∀ d1 : List MazeState, (∀ b ∈ d1, key b < key c) →
      ∀ c0 : MazeState, key c0 < key c → runMax c0 (d1 ++ c :: d2) = c := by
  intro d1
  induction d1 with
  | nil =>
    intro _ c0 h0
    show runMax (if key c0 < key c then c else c0) d2 = c
    rw [if_pos h0]
    exact runMax_stay d2 c h2
  | cons f d1' ih =>
    intro hd1 c0 h0
    show runMax (if key c0 < key f then f else c0) (d1' ++ c :: d2) = c
    have hf : key f < key c := hd1 f (List.mem_cons_self f d1')
    have hrest : ∀ b ∈ d1', key b < key c :=
      fun b hb => hd1 b (List.mem_cons_of_mem f hb)
    split
    · exact ih hrest f hf
    · exact ih hrest c0 h0

/-- The running strict maximum of `c0 :: cs` is the first element of maximal
key: if `c0 :: cs` splits as `d1 ++ c :: d2` with everything before `c`
strictly below it and everything after at most it, the fold returns `c`. -/
theorem runMax_first (c : MazeState) (d1 d2 : List MazeState)
    (h1 : ∀ b ∈ d1, key b < key c) (h2 : ∀ b ∈ d2, key b ≤ key c) :
    ∀ (c0 : MazeState) (cs : List MazeState), c0 :: cs = d1 ++ c :: d2 →
      runMax c0 cs = c := by
  intro c0 cs heq
  cases d1 with
  | nil =>
    simp only [List.nil_append, List.cons.injEq] at heq
    obtain ⟨rfl, rfl⟩ := heq
    exact runMax_stay cs c0 h2
  | cons f d1' =>
    simp only [List.cons_append, List.cons.injEq] at heq
    obtain ⟨rfl, rfl⟩ := heq
    exact runMax_aux c d2 h2 d1'
      (fun b hb => h1 b (List.mem_cons_of_mem c0 hb))
      c0 (h1 c0 (List.mem_cons_self c0 d1'))

/-! ## C2: greedy optimality (corrected for the `-INF` sentinel) -/

/-- C2 counterexample state: an all-zero board with `game_score = -INF`, so
every successor's `evaluated_score` equals `-INF` and the strict comparison
against the sentinel `best_score = -INF` never fires. -/
def cexState2 : MazeState :=
  { points := [[0, 0, 0, 0], [0, 0, 0, 0], [0, 0, 0, 0]], turn := 0,
    character := ⟨1, 1⟩, game_score := -INF, evaluated_score := 0,
    first_action := none }

/-- C2 counterexample: the legal-action set is non-empty, yet `greedy_action`
returns no action at all (`best_action.unwrap()` panics), because no
successor score is strictly greater than the `-INF` sentinel. -/
theorem greedy_action_sentinel_cex :
    legalActions cexState2 ≠ [] ∧ greedy_action cexState2 = none := by decide

/-- C2 (amended with `-INF < game_score`, which every state reachable from a
valid initial state satisfies): `greedy_action` returns a legal action whose
successor `evaluated_score` is maximal, and on ties the first-encountered
(lowest-index) action. -/
theorem greedy_action_optimal (s : MazeState) (hne : legalActions s ≠ [])
    (hgs : -INF < s.game_score) :
    ∃ a, greedy_action s = some a ∧ a ∈ legalActions s ∧
      (∀ b ∈ legalActions s, childScore s b ≤ childScore s a) ∧
      (∀ b ∈ legalActions s, childScore s b = childScore s a → a ≤ b) := by
  obtain ⟨b0, hb0⟩ := List.exists_mem_of_ne_nil _ hne
  have hex : ∃ b ∈ legalActions s, -INF < childScore s b :=
    ⟨b0, hb0, lt_of_lt_of_le hgs (childScore_ge s b0)⟩
  obtain ⟨l1, a, l2, heq, hfold, _, hl1, hl2⟩ :=
    gfold_found s (legalActions s) (-INF) none hex
  refine ⟨a, by rw [greedy_action_eq, hfold], ?_, ?_, ?_⟩
  · rw [heq]
    exact List.mem_append_right _ (List.mem_cons_self a l2)
  · intro b hb
    rw [heq] at hb
    rcases List.mem_append.1 hb with h1 | h2
    · exact le_of_lt (hl1 b h1)
    · rcases List.mem_cons.1 h2 with rfl | h2'
      · exact le_refl _
      · exact hl2 b h2'
  · intro b hb hbeq
    rw [heq] at hb
    rcases List.mem_append.1 hb with h1 | h2
    · exact absurd hbeq (ne_of_lt (hl1 b h1))
    · rcases List.mem_cons.1 h2 with rfl | h2'
      · exact le_refl _
      · have hsort := legalActions_sorted s
        rw [heq] at hsort
        have hpair := (List.pairwise_append.1 hsort).2.1
        rw [List.pairwise_cons] at hpair
        exact le_of_lt (hpair.1 b h2')

/-- C2 witness state. -/
def wState2 : MazeState :=
  { points := [[0, 3, 0, 0], [5, 0, 0, 0], [0, 0, 9, 0]], turn := 0,
    character := ⟨0, 0⟩, game_score := 0, evaluated_score := 0,
    first_action := none }

/-- C2 witness: the amended optimality statement at a concrete state. -/
theorem greedy_action_optimal_witness :
    legalActions wState2 ≠ [] ∧ -INF < wState2.game_score ∧
    (∃ a, greedy_action wState2 = some a ∧ a ∈ legalActions wState2 ∧
      (∀ b ∈ legalActions wState2, childScore wState2 b ≤ childScore wState2 a) ∧
      (∀ b ∈ legalActions wState2,
        childScore wState2 b = childScore wState2 a → a ≤ b)) :=
  ⟨by decide, by decide, greedy_action_optimal wState2 (by decide) (by decide)⟩

/-! ## C1: beam search at depth 1 vs greedy (corrected for the sentinel) -/

theorem key_stampedChild (t0 : Bool) (s : MazeState) (a : Nat) :
    key (stampedChild t0 s a) = childScore s a := by
  cases t0 <;> rfl

theorem stampedChild_first (s : MazeState) (a : Nat) :
    (stampedChild true s a).first_action = some a := rfl

theorem expandInto_eq (t0 : Bool) (s : MazeState) (next : List MazeState) :
    expandInto t0 s next =
      List.foldl hpush next ((legalActions s).map (stampedChild t0 s)) := by
  rw [expandInto, List.foldl_map]

theorem hpop_nil : hpop [] = none := rfl

theorem hpop_singleton (s : MazeState) : hpop [s] = some (s, []) := rfl

theorem innerLoop_nil (t0 : Bool) :
    ∀ (w : Nat) (next : List MazeState), innerLoop t0 w [] next = next := by
  intro w
  induction w with
  | zero => intro next; rfl
  | succ w ih =>
    intro next
    simp only [innerLoop, hpop_nil]
    exact ih next

theorem head?_eq_getD (l : List MazeState) (hne : l ≠ []) :
    l.head? = some (l.getD 0 default) := by
  cases l with
  | nil => exact absurd rfl hne
  | cons x l => rfl

/-- C1 counterexample state: all-zero board with `game_score = -INF`. -/
def cexState1 : MazeState :=
  { points := [[0, 0, 0, 0], [0, 0, 0, 0], [0, 0, 0, 0]], turn := 0,
    character := ⟨0, 0⟩, game_score := -INF, evaluated_score := 0,
    first_action := none }

/-- C1 counterexample: on this state (non-empty legal set) the depth-1 beam
search returns `Some 0` but `greedy_action` returns no action at all (its
`-INF` sentinel is never strictly beaten), so the two entry points disagree
as claimed equal. -/
theorem beam_greedy_sentinel_cex :
    legalActions cexState1 ≠ [] ∧
    beam_search_action cexState1 (legalActions cexState1).length 1 ≠
      greedy_action cexState1 := by decide

/-- C1 (amended with `-INF < game_score`, which every state reachable from a
valid initial state satisfies): with `beam_width` equal to the branching
factor and `beam_depth = 1`, `beam_search_action` returns exactly
`greedy_action`'s choice — both pick the first legal action attaining the
maximal successor score. -/
theorem beam_depth_one_eq_greedy (s : MazeState) (hne : legalActions s ≠ [])
    (hgs : -INF < s.game_score) :
    beam_search_action s (legalActions s).length 1 = greedy_action s := by
  -- the greedy fold returns the first action of maximal successor score
  obtain ⟨b0, hb0⟩ := List.exists_mem_of_ne_nil _ hne
  have hex : ∃ b ∈ legalActions s, -INF < childScore s b :=
    ⟨b0, hb0, lt_of_lt_of_le hgs (childScore_ge s b0)⟩
  obtain ⟨l1, a, l2, heq, hfold, _, hl1, hl2⟩ :=
    gfold_found s (legalActions s) (-INF) none hex
  have hgreedy : greedy_action s = some a := by rw [greedy_action_eq, hfold]
  -- the single depth level of the beam expands exactly the root
  obtain ⟨a0, rest, hcons⟩ := List.exists_cons_of_ne_nil hne
  have hinner : innerLoop true ((legalActions s).length) [s] [] =
      expandInto true s [] := by
    rw [hcons]
    show innerLoop true (rest.length + 1) [s] [] = _
    simp only [innerLoop, hpop_singleton]
    exact innerLoop_nil true rest.length _
  -- the frontier after the pushes: root = first-pushed maximum = child of `a`
  have hchild : expandInto true s [] =
      List.foldl hpush [stampedChild true s a0]
        ((rest).map (stampedChild true s)) := by
    rw [expandInto_eq, hcons, List.map_cons, List.foldl_cons, hpush_nil]
  have hmax0 : RootMax [stampedChild true s a0] := by
    intro y hy
    rcases List.mem_singleton.1 hy with rfl
    exact le_refl _
  obtain ⟨hne2, _, hroot⟩ := foldl_hpush_root ((rest).map (stampedChild true s))
    [stampedChild true s a0] (by simp) hmax0
  have hmapeq : stampedChild true s a0 :: rest.map (stampedChild true s) =
      l1.map (stampedChild true s) ++
        stampedChild true s a :: l2.map (stampedChild true s) := by
    rw [← List.map_cons, ← hcons, heq, List.map_append, List.map_cons]
  have hrm : runMax (stampedChild true s a0) (rest.map (stampedChild true s)) =
      stampedChild true s a := by
    refine runMax_first (stampedChild true s a) _ _ ?_ ?_ _ _ hmapeq
    · intro b hb
      obtain ⟨x, hx, rfl⟩ := List.mem_map.1 hb
      rw [key_stampedChild, key_stampedChild]
      exact hl1 x hx
    · intro b hb
      obtain ⟨x, hx, rfl⟩ := List.mem_map.1 hb
      rw [key_stampedChild, key_stampedChild]
      exact hl2 x hx
  have hpeek2 : hpeek (expandInto true s []) = some (stampedChild true s a) := by
    rw [hchild, hpeek, head?_eq_getD _ hne2, hroot]
    show some ([stampedChild true s a0].getD 0 default |>
        fun c => runMax c (rest.map (stampedChild true s))) = _
    show some (runMax ([stampedChild true s a0].getD 0 default)
        (rest.map (stampedChild true s))) = _
    rw [show [stampedChild true s a0].getD 0 default = stampedChild true s a0
      from rfl, hrm]
  -- assemble the single beam iteration
  show (match beamLoop ((legalActions s).length) true 1 (hpush [] s) none with
    | none => none
    | some b => b.first_action) = greedy_action s
  rw [show hpush [] s = [s] from hpush_nil s]
  simp only [beamLoop, hinner, hpeek2]
  rw [ite_self, hgreedy]
  exact stampedChild_first s a

/-- C1 witness state. -/
def wState1 : MazeState :=
  { points := [[0, 3, 0, 0], [5, 0, 0, 0], [0, 0, 9, 0]], turn := 0,
    character := ⟨0, 0⟩, game_score := 0, evaluated_score := 0,
    first_action := none }

/-- C1 witness: the amended equivalence at a concrete state. -/
theorem beam_depth_one_eq_greedy_witness :
    legalActions wState1 ≠ [] ∧ -INF < wState1.game_score ∧
    beam_search_action wState1 (legalActions wState1).length 1 =
      greedy_action wState1 :=
  ⟨by decide, by decide, beam_depth_one_eq_greedy wState1 (by decide) (by decide)⟩

/-! ## C7: zero beam parameters abort -/

/-- C7: calling `beam_search_action` with `beam_width = 0` or
`beam_depth = 0` always aborts (`none`, an `unwrap` panic) and never silently
returns an action: with depth 0 no frontier is ever peeked so the final
`best_state.unwrap()` fails; with width 0 the next frontier is empty when
peeked. -/
theorem beam_zero_params_abort (s : MazeState) (w d : Nat)
    (h : w = 0 ∨ d = 0) : beam_search_action s w d = none := by
  rcases h with rfl | rfl
  · cases d with
    | zero => rfl
    | succ d => rfl
  · rfl

/-- C7 witness state. -/
def wState7 : MazeState :=
  { points := [[0, 3, 0, 0], [5, 0, 0, 0], [0, 0, 9, 0]], turn := 0,
    character := ⟨1, 2⟩, game_score := 0, evaluated_score := 0,
    first_action := none }

/-- C7 witness: both zero parameters abort at a concrete state. -/
theorem beam_zero_params_abort_witness :
    beam_search_action wState7 0 1 = none ∧
    beam_search_action wState7 1 0 = none :=
  ⟨beam_zero_params_abort wState7 0 1 (Or.inl rfl),
   beam_zero_params_abort wState7 1 0 (Or.inr rfl)⟩

/-! ## C3: the beam search returns a legal root action

`GoodFor s0 b` is the frontier invariant: every frontier member after the
first depth level is in bounds and carries a `first_action` stamped at depth
0 with one of `s0`'s legal actions; `advance`, `evaluate_score` and the
`t ≠ 0` branch never modify `first_action`, so the stamp propagates unchanged
to every descendant. -/

/-- Frontier invariant for a beam rooted at `s0`. -/
def GoodFor (s0 b : MazeState) : Prop :=
  InBoundsPos b.character.y b.character.x ∧
  ∃ a, b.first_action = some a ∧ a ∈ legalActions s0

theorem stampedChild_character (t0 : Bool) (s : MazeState) (a : Nat) :
    (stampedChild t0 s a).character = (advance s a).character := by
  cases t0 <;> rfl

theorem stampedChild_first_false (s : MazeState) (a : Nat) :
    (stampedChild false s a).first_action = s.first_action := rfl

theorem stampedChild_good (s0 : MazeState) (a : Nat)
    (ha : a ∈ legalActions s0) : GoodFor s0 (stampedChild true s0 a) := by
  refine ⟨?_, a, stampedChild_first s0 a, ha⟩
  rw [stampedChild_character]
  exact advance_inBounds s0 a ha

theorem stampedChild_good_of_parent (s0 p : MazeState) (a : Nat)
    (ha : a ∈ legalActions p) (hp : GoodFor s0 p) :
    GoodFor s0 (stampedChild false p a) := by
  refine ⟨?_, ?_⟩
  · rw [stampedChild_character]
    exact advance_inBounds p a ha
  · rw [stampedChild_first_false]
    exact hp.2

theorem foldl_hpush_mem (cs : List MazeState) :
    ∀ (acc : List MazeState) (y : MazeState),
      y ∈ List.foldl hpush acc cs → y ∈ acc ∨ y ∈ cs := by
  induction cs with
  | nil => intro acc y h; exact Or.inl h
  | cons c cs ih =>
    intro acc y h
    rw [List.foldl_cons] at h
    rcases ih (hpush acc c) y h with h1 | h2
    · rcases mem_of_mem_hpush h1 with h3 | rfl
      · exact Or.inl h3
      · exact Or.inr (List.mem_cons_self _ _)
    · exact Or.inr (List.mem_cons_of_mem _ h2)

theorem foldl_hpush_ne_nil_acc (cs : List MazeState) :
    ∀ acc : List MazeState, acc ≠ [] → List.foldl hpush acc cs ≠ [] := by
  induction cs with
  | nil => intro acc h; exact h
  | cons c cs ih =>
    intro acc _
    rw [List.foldl_cons]
    exact ih (hpush acc c) (hpush_ne_nil acc c)

theorem foldl_hpush_ne_nil_list (cs : List MazeState) (acc : List MazeState)
    (h : cs ≠ []) : List.foldl hpush acc cs ≠ [] := by
  obtain ⟨c, cs', rfl⟩ := List.exists_cons_of_ne_nil h
  rw [List.foldl_cons]
  exact foldl_hpush_ne_nil_acc cs' (hpush acc c) (hpush_ne_nil acc c)

theorem expandInto_good (s0 : MazeState) (t0 : Bool) (p : MazeState)
    (next : List MazeState) (hnext : ∀ y ∈ next, GoodFor s0 y)
    (hch : ∀ a ∈ legalActions p, GoodFor s0 (stampedChild t0 p a)) :
    ∀ y ∈ expandInto t0 p next, GoodFor s0 y := by
  intro y hy
  rw [expandInto_eq] at hy
  rcases foldl_hpush_mem _ _ _ hy with h1 | h2
  · exact hnext y h1
  · obtain ⟨x, hx, rfl⟩ := List.mem_map.1 h2
    exact hch x hx

theorem expandInto_ne_nil_next (t0 : Bool) (p : MazeState)
    (next : List MazeState) (h : next ≠ []) : expandInto t0 p next ≠ [] := by
  rw [expandInto_eq]
  exact foldl_hpush_ne_nil_acc _ _ h

theorem expandInto_ne_nil_legal (t0 : Bool) (p : MazeState)
    (next : List MazeState) (h : legalActions p ≠ []) :
    expandInto t0 p next ≠ [] := by
  rw [expandInto_eq]
  exact foldl_hpush_ne_nil_list _ _ (by simpa using h)

/-! ### `hpop` returns a member and keeps only members -/

theorem siftDownLoopF_inv :
    ∀ (fuel : Nat) (l : List MazeState) (hole : Nat), hole < l.length →
      (siftDownLoopF fuel l hole).2 < (siftDownLoopF fuel l hole).1.length ∧
      (siftDownLoopF fuel l hole).1.length = l.length ∧
      ∀ y ∈ (siftDownLoopF fuel l hole).1, y ∈ l := by
  intro fuel
  induction fuel with
  | zero => intro l hole h; exact ⟨h, rfl, fun y hy => hy⟩
  | succ fuel ih =>
    intro l hole h
    simp only [siftDownLoopF]
    by_cases hc : 2 * hole + 1 + 2 ≤ l.length
    · rw [if_pos hc]
      set child := if key (l.getD (2 * hole + 1) default) ≤
          key (l.getD (2 * hole + 1 + 1) default)
        then 2 * hole + 1 + 1 else 2 * hole + 1 with hchild
      have hclt : child < l.length := by
        rw [hchild]; split <;> omega
      have hlen : (lswap l hole child).length = l.length := length_lswap ..
      obtain ⟨h1, h2, h3⟩ := ih (lswap l hole child) child (by omega)
      refine ⟨h1, by omega, ?_⟩
      intro y hy
      exact mem_of_mem_lswap h hclt (h3 y hy)
    · rw [if_neg hc]
      by_cases he : 2 * hole + 1 + 1 = l.length
      · rw [if_pos he]
        have hclt : 2 * hole + 1 < l.length := by omega
        refine ⟨by rw [length_lswap]; omega, length_lswap .., ?_⟩
        intro y hy
        exact mem_of_mem_lswap h hclt hy
      · rw [if_neg he]
        exact ⟨h, rfl, fun y hy => hy⟩

theorem siftDownToBottom_mem (l : List MazeState) (pos : Nat)
    (hpos : pos < l.length) :
    ∀ y ∈ siftDownToBottom l pos, y ∈ l := by
  intro y hy
  obtain ⟨h1, _, h3⟩ := siftDownLoopF_inv l.length l pos hpos
  exact h3 y (siftUpF_mem pos _ _ _ y h1 hy)

theorem hpop_eq (l : List MazeState) (hne : l ≠ []) :
    hpop l =
      if l.dropLast.isEmpty then some (l.getLast hne, [])
      else some (l.getD 0 default,
        siftDownToBottom (l.dropLast.set 0 (l.getLast hne)) 0) := by
  unfold hpop
  rw [List.getLast?_eq_getLast l hne]

theorem hpop_isSome (l : List MazeState) (hne : l ≠ []) :
    ∃ st rest, hpop l = some (st, rest) := by
  rw [hpop_eq l hne]
  by_cases he : l.dropLast.isEmpty
  · rw [if_pos he]
    exact ⟨_, _, rfl⟩
  · rw [if_neg he]
    exact ⟨_, _, rfl⟩

theorem hpop_mem (l : List MazeState) (st : MazeState)
    (rest : List MazeState) (h : hpop l = some (st, rest)) :
    st ∈ l ∧ ∀ y ∈ rest, y ∈ l := by
  have hlne : l ≠ [] := by
    intro h'
    rw [h'] at h
    exact absurd h (by simp [hpop])
  rw [hpop_eq l hlne] at h
  have hitem : l.getLast hlne ∈ l := List.getLast_mem hlne
  by_cases he : l.dropLast.isEmpty
  · rw [if_pos he] at h
    obtain ⟨rfl, rfl⟩ : l.getLast hlne = st ∧ ([] : List MazeState) = rest := by
      constructor
      · exact congrArg Prod.fst (Option.some_inj.1 h)
      · exact congrArg Prod.snd (Option.some_inj.1 h)
    exact ⟨hitem, by simp⟩
  · rw [if_neg he] at h
    obtain ⟨rfl, rfl⟩ : l.getD 0 default = st ∧
        siftDownToBottom (l.dropLast.set 0 (l.getLast hlne)) 0 = rest := by
      constructor
      · exact congrArg Prod.fst (Option.some_inj.1 h)
      · exact congrArg Prod.snd (Option.some_inj.1 h)
    have hlp : 0 < l.length := List.length_pos.2 hlne
    have hdne : l.dropLast ≠ [] := by
      intro h'
      rw [h'] at he
      exact he rfl
    have hdp : 0 < (l.dropLast.set 0 (l.getLast hlne)).length := by
      rw [List.length_set]
      exact List.length_pos.2 hdne
    refine ⟨?_, ?_⟩
    · rw [List.getD_eq_getElem _ _ hlp]
      exact List.getElem_mem hlp
    · intro y hy
      have hy2 := siftDownToBottom_mem _ 0 hdp y hy
      rcases List.mem_or_eq_of_mem_set hy2 with h3 | rfl
      · exact List.mem_of_mem_dropLast h3
      · exact hitem

/-! ### The beam loop keeps the invariant -/

theorem innerLoop_good_mem (s0 : MazeState) (t0 : Bool) :
    ∀ (w : Nat) (now next : List MazeState),
      (∀ p ∈ now, ∀ a ∈ legalActions p, GoodFor s0 (stampedChild t0 p a)) →
      (∀ y ∈ next, GoodFor s0 y) →
      ∀ y ∈ innerLoop t0 w now next, GoodFor s0 y := by
  intro w
  induction w with
  | zero => intro now next _ hnext y hy; exact hnext y hy
  | succ w ih =>
    intro now next hnow hnext y hy
    rw [innerLoop] at hy
    cases hp : hpop now with
    | none =>
      rw [hp] at hy
      exact ih now next hnow hnext y hy
    | some pr =>
      obtain ⟨st, now'⟩ := pr
      rw [hp] at hy
      obtain ⟨hst, hrest⟩ := hpop_mem now st now' hp
      refine ih now' (expandInto t0 st next) ?_ ?_ y hy
      · intro p hp' a ha
        exact hnow p (hrest p hp') a ha
      · exact expandInto_good s0 t0 st next hnext (hnow st hst)

theorem innerLoop_ne_nil_next (t0 : Bool) :
    ∀ (w : Nat) (now next : List MazeState), next ≠ [] →
      innerLoop t0 w now next ≠ [] := by
  intro w
  induction w with
  | zero => intro now next h; exact h
  | succ w ih =>
    intro now next h
    rw [innerLoop]
    cases hp : hpop now with
    | none => exact ih now next h
    | some pr =>
      obtain ⟨st, now'⟩ := pr
      exact ih now' _ (expandInto_ne_nil_next t0 st next h)

theorem innerLoop_ne_nil (t0 : Bool) (w : Nat) (now next : List MazeState)
    (hw : 1 ≤ w) (hnow : now ≠ [])
    (hleg : ∀ p ∈ now, legalActions p ≠ []) :
    innerLoop t0 w now next ≠ [] := by
  obtain ⟨w', rfl⟩ : ∃ w', w = w' + 1 := ⟨w - 1, by omega⟩
  rw [innerLoop]
  obtain ⟨st, rest, hp⟩ := hpop_isSome now hnow
  rw [hp]
  obtain ⟨hst, _⟩ := hpop_mem now st rest hp
  exact innerLoop_ne_nil_next t0 w' rest _
    (expandInto_ne_nil_legal t0 st _ (hleg st hst))

theorem goodFor_legal_ne_nil (s0 b : MazeState) (h : GoodFor s0 b) :
    legalActions b ≠ [] :=
  legalActions_ne_nil b h.1

theorem beamLoop_good (s0 : MazeState) (w : Nat) (hw : 1 ≤ w) :
    ∀ (iters : Nat) (now : List MazeState) (b0 : MazeState), now ≠ [] →
      (∀ y ∈ now, GoodFor s0 y) → GoodFor s0 b0 →
      ∃ b, beamLoop w false iters now (some b0) = some b ∧ GoodFor s0 b := by
  intro iters
  induction iters with
  | zero => intro now b0 _ _ hb0; exact ⟨b0, rfl, hb0⟩
  | succ iters ih =>
    intro now b0 hnow hgood hb0
    have hne' : innerLoop false w now [] ≠ [] :=
      innerLoop_ne_nil false w now [] hw hnow
        fun p hp => goodFor_legal_ne_nil s0 p (hgood p hp)
    have hgood' : ∀ y ∈ innerLoop false w now [], GoodFor s0 y :=
      innerLoop_good_mem s0 false w now []
        (fun p hp a ha => stampedChild_good_of_parent s0 p a ha (hgood p hp))
        (by simp)
    have hbmem : (innerLoop false w now []).getD 0 default ∈
        innerLoop false w now [] := by
      rw [List.getD_eq_getElem _ _ (List.length_pos.2 hne')]
      exact List.getElem_mem _
    simp only [beamLoop, hpeek, head?_eq_getD _ hne']
    by_cases hd : isDone ((innerLoop false w now []).getD 0 default)
    · rw [if_pos hd]
      exact ⟨_, rfl, hgood' _ hbmem⟩
    · rw [if_neg hd]
      exact ih (innerLoop false w now []) _ hne' hgood' (hgood' _ hbmem)

/-- C3: for `beam_width ≥ 1`, `beam_depth ≥ 1` and a non-empty legal set,
`beam_search_action` returns an action, and that action is legal in the input
state: it is the `first_action` stamped at depth 0 on the best remaining
frontier member, and the stamp is set only at depth 0 and copied unchanged to
all descendants (the `GoodFor` frontier invariant). -/
theorem beam_search_action_legal (s : MazeState) (w d : Nat)
    (hne : legalActions s ≠ []) (hw : 1 ≤ w) (hd : 1 ≤ d) :
    ∃ a, beam_search_action s w d = some a ∧ a ∈ legalActions s := by
  obtain ⟨d', rfl⟩ : ∃ d', d = d' + 1 := ⟨d - 1, by omega⟩
  have hmain : ∃ b, beamLoop w true (d' + 1) (hpush [] s) none = some b ∧
      GoodFor s b := by
    rw [hpush_nil]
    have hne' : innerLoop true w [s] [] ≠ [] :=
      innerLoop_ne_nil true w [s] [] hw (by simp)
        (by intro p hp; rcases List.mem_singleton.1 hp with rfl; exact hne)
    have hgood' : ∀ y ∈ innerLoop true w [s] [], GoodFor s y := by
      refine innerLoop_good_mem s true w [s] [] ?_ (by simp)
      intro p hp a ha
      rcases List.mem_singleton.1 hp with rfl
      exact stampedChild_good p a ha
    have hbmem : (innerLoop true w [s] []).getD 0 default ∈
        innerLoop true w [s] [] := by
      rw [List.getD_eq_getElem _ _ (List.length_pos.2 hne')]
      exact List.getElem_mem _
    simp only [beamLoop, hpeek, head?_eq_getD _ hne']
    by_cases hdn : isDone ((innerLoop true w [s] []).getD 0 default)
    · rw [if_pos hdn]
      exact ⟨_, rfl, hgood' _ hbmem⟩
    · rw [if_neg hdn]
      exact beamLoop_good s w hw d' (innerLoop true w [s] []) _ hne' hgood'
        (hgood' _ hbmem)
  obtain ⟨b, hb, _, a, hfa, hmem⟩ := hmain
  refine ⟨a, ?_, hmem⟩
  show (match beamLoop w true (d' + 1) (hpush [] s) none with
    | none => none
    | some b => b.first_action) = some a
  rw [hb]
  exact hfa

/-- C3 witness state. -/
def wState3 : MazeState :=
  { points := [[0, 3, 0, 0], [5, 0, 0, 0], [0, 0, 9, 0]], turn := 0,
    character := ⟨1, 1⟩, game_score := 0, evaluated_score := 0,
    first_action := none }

/-- C3 witness: a width-2, depth-3 beam search at a concrete state returns a
legal action. -/
theorem beam_search_action_legal_witness :
    legalActions wState3 ≠ [] ∧
    (∃ a, beam_search_action wState3 2 3 = some a ∧
      a ∈ legalActions wState3) :=
  ⟨by decide,
    beam_search_action_legal wState3 2 3 (by decide) (by omega) (by omega)⟩

/-! ## C9: non-empty legal set, totality of greedy (corrected) -/

/-- C9 counterexample state: in-bounds agent, all-zero board, but
`game_score = -INF`. -/
def cexState9 : MazeState :=
  { points := [[0, 0, 0, 0], [0, 0, 0, 0], [0, 0, 0, 0]], turn := 0,
    character := ⟨2, 2⟩, game_score := -INF, evaluated_score := 0,
    first_action := none }

/-- C9 counterexample: an in-bounds state on the 3×4 board on which
`greedy_action` nevertheless fails to return an action — so "greedy_action
always returns an action" is false as stated (the `-INF` sentinel, not the
empty legal set, is the failure). -/
theorem greedy_inbounds_none_cex :
    InBoundsPos cexState9.character.y cexState9.character.x ∧
    greedy_action cexState9 = none := by decide

/-- C9 (amended: greedy totality additionally needs `-INF < game_score`,
which holds on all reachable states): for every in-bounds agent position on
the 3×4 board, `legal_actions` returns between 1 and 4 actions and is never
empty, so greedy's empty-set failure is unreachable; and `greedy_action`
returns an action whenever additionally `game_score` exceeds `-INF`. -/
theorem legalActions_card_greedy_total (s : MazeState)
    (hb : InBoundsPos s.character.y s.character.x) :
    1 ≤ (legalActions s).length ∧ (legalActions s).length ≤ 4 ∧
    legalActions s ≠ [] ∧
    (-INF < s.game_score → ∃ a, greedy_action s = some a) := by
  have hne := legalActions_ne_nil s hb
  refine ⟨?_, ?_, hne, ?_⟩
  · exact List.length_pos.2 hne
  · calc (legalActions s).length ≤ (List.range 4).length :=
          List.length_filter_le _ _
      _ = 4 := by simp
  · intro hg
    obtain ⟨b0, hb0⟩ := List.exists_mem_of_ne_nil _ hne
    have hex : ∃ b ∈ legalActions s, -INF < childScore s b :=
      ⟨b0, hb0, lt_of_lt_of_le hg (childScore_ge s b0)⟩
    obtain ⟨l1, a, l2, heq, hfold, _, _, _⟩ :=
      gfold_found s (legalActions s) (-INF) none hex
    exact ⟨a, by rw [greedy_action_eq, hfold]⟩

/-- C9 witness state. -/
def wState9 : MazeState :=
  { points := [[0, 3, 0, 0], [5, 0, 0, 0], [0, 0, 9, 0]], turn := 0,
    character := ⟨2, 3⟩, game_score := 0, evaluated_score := 0,
    first_action := none }

/-- C9 witness: the amended statement at a concrete corner state. -/
theorem legalActions_card_greedy_total_witness :
    InBoundsPos wState9.character.y wState9.character.x ∧
    (1 ≤ (legalActions wState9).length ∧ (legalActions wState9).length ≤ 4 ∧
      legalActions wState9 ≠ [] ∧
      (-INF < wState9.game_score → ∃ a, greedy_action wState9 = some a)) :=
  ⟨by decide, legalActions_card_greedy_total wState9 (by decide)⟩

/-! ## C10: the initial state produced by `from_seed` -/

theorem cellOf_setCell_or (g : List (List Int)) (y x : Nat) (v : Int)
    (j i : Nat) :
    cellOf (setCell g y x v) j i = cellOf g j i ∨
    cellOf (setCell g y x v) j i = v := by
  by_cases h : j = y ∧ i = x
  · obtain ⟨rfl, rfl⟩ := h
    by_cases hy : j < g.length
    · by_cases hx : i < (g.getD j []).length
      · exact Or.inr (cellOf_setCell_same g j i v hy hx)
      · left
        rw [cellOf_default_of_oob g j i (by tauto)]
        apply cellOf_default_of_oob
        rintro ⟨h1, h2⟩
        have hrow : (setCell g j i v).getD j [] = (g.getD j []).set i v := by
          unfold setCell
          rw [List.getD_eq_getElem?_getD, List.getElem?_set]
          simp [hy]
        rw [hrow, List.length_set] at h2
        exact hx h2
    · left
      rw [cellOf_default_of_oob g j i (by tauto)]
      apply cellOf_default_of_oob
      rintro ⟨h1, _⟩
      rw [setCell, List.length_set] at h1
      exact hy h1
  · exact Or.inl (cellOf_setCell_ne g y x j i v h)

/-- The board invariant maintained by the `from_seed` filling loop: the start
cell holds `0` and every cell read is between `0` and `9`. -/
def BoardInv (y x : Nat) (g : List (List Int)) : Prop :=
  cellOf g y x = 0 ∧ ∀ j i : Nat, 0 ≤ cellOf g j i ∧ cellOf g j i ≤ 9

theorem cellOf_replicate_zero (j i : Nat) :
    cellOf (List.replicate H (List.replicate W 0)) j i = 0 := by
  simp only [cellOf, List.getD_eq_getElem?_getD, List.getElem?_replicate]
  by_cases hj : j < H
  · by_cases hi : i < W <;> simp [hj, hi]
  · simp [hj]

theorem boardInv_init (y x : Nat) :
    BoardInv y x (List.replicate H (List.replicate W 0)) :=
  ⟨cellOf_replicate_zero y x,
    fun j i => by rw [cellOf_replicate_zero]; exact ⟨le_refl 0, by norm_num⟩⟩

theorem foldl_preserve {α β : Type} (P : β → Prop) (f : β → α → β)
    (hf : ∀ b a, P b → P (f b a)) (l : List α) :
    ∀ b : β, P b → P (l.foldl f b) := by
  induction l with
  | nil => intro b hb; exact hb
  | cons a l ih => intro b hb; exact ih (f b a) (hf b a hb)

theorem boardInv_fillCell (rng : Nat → Nat) (y x j : Nat)
    (acc : Nat × List (List Int)) (i : Nat) (hb : BoardInv y x acc.2) :
    BoardInv y x (fillCell rng y x j acc i).2 := by
  unfold fillCell
  split
  · exact hb
  · rename_i hcond
    constructor
    · rw [cellOf_setCell_ne _ _ _ _ _ _ (by tauto)]
      exact hb.1
    · intro j' i'
      rcases cellOf_setCell_or acc.2 j i (Int.ofNat (rng acc.1 % 10)) j' i'
        with h | h
      · rw [h]; exact hb.2 j' i'
      · rw [h]
        refine ⟨Int.ofNat_nonneg _, ?_⟩
        have h10 : rng acc.1 % 10 < 10 := Nat.mod_lt _ (by norm_num)
        exact Int.ofNat_le.2 (Nat.lt_succ_iff.1 h10)

theorem fromSeed_boardInv (rng : Nat → Nat) :
    BoardInv (rng 0 % H) (rng 1 % W) (fromSeed rng).points := by
  have hmain : BoardInv (rng 0 % H) (rng 1 % W)
      ((List.range H).foldl (fillRow rng (rng 0 % H) (rng 1 % W))
        (2, List.replicate H (List.replicate W 0))).2 := by
    refine foldl_preserve
      (fun acc : Nat × List (List Int) => BoardInv (rng 0 % H) (rng 1 % W) acc.2)
      (fillRow rng (rng 0 % H) (rng 1 % W)) ?_ (List.range H)
      (2, List.replicate H (List.replicate W 0))
      (boardInv_init _ _)
    intro b j hb
    exact foldl_preserve
      (fun acc : Nat × List (List Int) => BoardInv (rng 0 % H) (rng 1 % W) acc.2)
      (fillCell rng (rng 0 % H) (rng 1 % W) j)
      (fun b2 i hb2 => boardInv_fillCell rng _ _ j b2 i hb2)
      (List.range W) b hb
  exact hmain

/-- C10: for every raw-draw stream (hence for every seed), the initial state
has `turn = 0`, zero game and evaluated scores, no `first_action`, an
in-bounds agent position, a `0` at the agent's start cell, every board cell
in `0..9`, and is non-terminal. -/
theorem fromSeed_spec (rng : Nat → Nat) :
    (fromSeed rng).turn = 0 ∧
    (fromSeed rng).game_score = 0 ∧
    (fromSeed rng).evaluated_score = 0 ∧
    (fromSeed rng).first_action = none ∧
    (fromSeed rng).character = ⟨((rng 0 % H : Nat) : Int), ((rng 1 % W : Nat) : Int)⟩ ∧
    InBoundsPos (fromSeed rng).character.y (fromSeed rng).character.x ∧
    cellOf (fromSeed rng).points (rng 0 % H) (rng 1 % W) = 0 ∧
    (∀ j i : Nat, 0 ≤ cellOf (fromSeed rng).points j i ∧
      cellOf (fromSeed rng).points j i ≤ 9) ∧
    isDone (fromSeed rng) = false := by
  obtain ⟨hcell, hrange⟩ := fromSeed_boardInv rng
  refine ⟨rfl, rfl, rfl, rfl, rfl, ?_, hcell, hrange, rfl⟩
  have hy : rng 0 % H < H := Nat.mod_lt _ (by norm_num [H])
  have hx : rng 1 % W < W := Nat.mod_lt _ (by norm_num [W])
  show InBoundsPos ((rng 0 % H : Nat) : Int) ((rng 1 % W : Nat) : Int)
  refine ⟨?_, ?_, ?_, ?_⟩
  · exact Int.ofNat_nonneg _
  · exact_mod_cast hy
  · exact Int.ofNat_nonneg _
  · exact_mod_cast hx

/-- C10 witness: the specification instantiated at a concrete stream. -/
theorem fromSeed_spec_witness :
    (fromSeed (fun k => k)).turn = 0 ∧
    cellOf (fromSeed (fun k => k)).points 0 1 = 0 ∧
    0 ≤ cellOf (fromSeed (fun k => k)).points 2 3 ∧
    cellOf (fromSeed (fun k => k)).points 2 3 ≤ 9 ∧
    isDone (fromSeed (fun k => k)) = false := by
  have h := fromSeed_spec (fun k => k)
  exact ⟨h.1, h.2.2.2.2.2.2.1, (h.2.2.2.2.2.2.2.1 2 3).1,
    (h.2.2.2.2.2.2.2.1 2 3).2, h.2.2.2.2.2.2.2.2⟩
